import Mathlib

/-!
# Verification of the myweb link-import / RC-reconciliation core

A shallow embedding of the bookmark-import, RC-codec and link-store
reconciliation logic of the repository (files `server.js`,
`js/modules/LinkManager.js`, `js/utils/shortcuts.js`, `js/app.js`),
together with proofs and refutations of the specification's claims.

JavaScript strings are modelled as `List Char` (`JStr`); the JS string
primitives used by the code (`split`, `trim`, `toLowerCase`, `startsWith`,
`endsWith`, `includes`, `replace`, `join`, `substring`) are given direct
list-level models below.  JS string comparisons on these values are literal,
so list equality models them faithfully.  `toLowerCase` is modelled on the
ASCII range, which covers every string handled in this development.
-/

/-- JavaScript string, modelled as its list of characters. -/
abbrev JStr := List Char

/-- Characters of a Lean string literal, used to write concrete JS strings. -/
def strChars (s : String) : JStr := s.data

/-- Whitespace test used by JS `trim` and `\s` (restricted to the ASCII
whitespace actually occurring in the repository's data). -/
def isWS (c : Char) : Bool := c.isWhitespace

/-- Model of JS `String.prototype.trimStart`. -/
def trimLeft (l : JStr) : JStr := l.dropWhile isWS

/-- Model of JS `String.prototype.trimEnd`. -/
def trimRight (l : JStr) : JStr := (l.reverse.dropWhile isWS).reverse

/-- Model of JS `String.prototype.trim`. -/
def jsTrim (l : JStr) : JStr := trimRight (trimLeft l)

/-- Model of JS `String.prototype.toLowerCase` (ASCII range). -/
def toLowerStr (l : JStr) : JStr := l.map Char.toLower

/-- Model of JS `String.prototype.split` with a one-character separator:
splits at every occurrence, `"".split(sep) = [""]`. -/
def splitOnChar (sep : Char) : JStr → List JStr
  | [] => [[]]
  | c :: cs =>
    let r := splitOnChar sep cs
    if c = sep then [] :: r else (c :: r.headI) :: r.tail

/-- Model of JS `Array.prototype.join` with a separator string. -/
def joinWith (sep : JStr) : List JStr → JStr
  | [] => []
  | [x] => x
  | x :: y :: xs => x ++ sep ++ joinWith sep (y :: xs)

/-- Model of JS `String.prototype.includes` for a fixed pattern. -/
def hasInfix (pat : JStr) : JStr → Bool
  | [] => pat.isEmpty
  | c :: rest => pat.isPrefixOf (c :: rest) || hasInfix pat rest

/-- Model of `[...new Set(xs)]`: first-occurrence-preserving deduplication. -/
def jsSetDedupAux : List JStr → List JStr → List JStr
  | [], _ => []
  | x :: xs, seen => if x ∈ seen then jsSetDedupAux xs seen else x :: jsSetDedupAux xs (x :: seen)

/-- Model of `[...new Set(xs)]` on a list of strings. -/
def jsSetDedup (l : List JStr) : List JStr := jsSetDedupAux l []

example : splitOnChar ',' (strChars "a,,b") = [strChars "a", [], strChars "b"] := by decide
example : splitOnChar ',' [] = [[]] := by decide
example : jsTrim (strChars "  a b\t") = strChars "a b" := by decide
example : joinWith [','] [strChars "a", strChars "b"] = strChars "a,b" := by decide
example : hasInfix (strChars " > ") (strChars "Dev > Fe") = true := by decide
example : hasInfix (strChars " > ") (strChars "Dev") = false := by decide
example : jsSetDedup [strChars "a", strChars "b", strChars "a"] = [strChars "a", strChars "b"] := by decide

/-! ## Data model -/

/-- A candidate link record crossing the import/RC boundary: the shape of the
objects handed to `LinkManager.replaceLinks` and to the server's
`POST /api/rc/append` handler (`{name, url, tags, description?, favicon?}`). -/
structure Candidate where
  name : JStr
  url : JStr
  tags : List JStr
  description : JStr := []
  favicon : Option JStr := none
deriving Repr, DecidableEq

/-- A stored link as built by `LinkManager.replaceLinks` / `addLink`
(`js/modules/LinkManager.js`).  `createdAt` is the ISO timestamp string and
`id` the string produced by `generateId()`; both are data-independent and are
supplied as parameters of the embedding. -/
structure StoredLink where
  id : JStr
  name : JStr
  url : JStr
  tags : List JStr
  order : Nat
  favicon : Option JStr
  description : JStr
  createdAt : JStr
  clickCount : Nat
  lastClicked : Option JStr
deriving Repr, DecidableEq

/-- A link parsed from the RC file by the server's `parseRcFile`
(`server.js`, lines 75-113). -/
structure RcLink where
  id : JStr
  name : JStr
  url : JStr
  tags : List JStr
  lineNumber : Nat
deriving Repr, DecidableEq

/-! ## `LinkManager.replaceLinks` (js/modules/LinkManager.js, lines 46-74)

`generateId()` returns `Date.now().toString(36)` plus random suffix; the
embedding abstracts the successive return values of `generateId()` as an id
supply `idGen : Nat → JStr` indexed by the number of links built so far, and
`new Date().toISOString()` as the parameter `now`. -/

/-- The lower-cased trimmed URL key `String(u).trim().toLowerCase()` used by
every dedup in the repository. -/
def keyOf (u : JStr) : JStr := toLowerStr (jsTrim u)

/-- One stored link as built inside the `forEach` of `replaceLinks`, where
`n = normalized.length` at push time. -/
def mkStored (idGen : Nat → JStr) (now : JStr) (n : Nat) (item : Candidate) : StoredLink :=
  { id := idGen n
    name := item.name
    url := item.url
    tags := item.tags
    order := n
    favicon := item.favicon
    description := item.description
    createdAt := now
    clickCount := 0
    lastClicked := none }

/-- The `forEach` loop body of `replaceLinks`: `seen` is the `Set` of accepted
URL keys and `n` the number of links accepted so far (`normalized.length`). -/
def replaceLinksGo (idGen : Nat → JStr) (now : JStr) : List Candidate → List JStr → Nat → List StoredLink
  | [], _, _ => []
  | item :: rest, seen, n =>
    if item.url = [] ∨ item.name = [] then replaceLinksGo idGen now rest seen n
    else if ¬ (strChars "http").isPrefixOf (keyOf item.url) then replaceLinksGo idGen now rest seen n
    else if keyOf item.url ∈ seen then replaceLinksGo idGen now rest seen n
    else mkStored idGen now n item :: replaceLinksGo idGen now rest (keyOf item.url :: seen) (n + 1)

/-- `LinkManager.replaceLinks(newLinks)`: discards the previous collection
(`old`), stores the rebuilt list, and returns `this.links.length`. -/
def replaceLinksFn (idGen : Nat → JStr) (now : JStr) (_old : List StoredLink)
    (newLinks : List Candidate) : List StoredLink × Nat :=
  let normalized := replaceLinksGo idGen now newLinks [] 0
  (normalized, normalized.length)

/-! ## `LinkManager.parseAndAddRcData` (js/modules/LinkManager.js, lines 470-494) -/

/-- One iteration of the `lines.forEach` in `parseAndAddRcData`: note that the
comment check `line.startsWith('#')` runs on the *untrimmed* line. -/
def rcCandLine (line : JStr) : Option Candidate :=
  if jsTrim line ≠ [] ∧ ¬ (strChars "#").isPrefixOf line then
    let parts := (splitOnChar ',' line).map jsTrim
    if parts.length ≥ 2 then
      let tagParts := parts.drop 2
      some { name := parts.getD 0 []
             url := parts.getD 1 []
             tags := if tagParts.length > 0 then
                 ((splitOnChar ',' (joinWith [','] tagParts)).map jsTrim).filter (· ≠ [])
               else [] }
    else none
  else none

/-- The `newLinks` array built by `parseAndAddRcData` from the RC text. -/
def rcCandidates (rcData : JStr) : List Candidate :=
  (splitOnChar '\n' (jsTrim rcData)).filterMap rcCandLine

/-- `parseAndAddRcData(rcData)`: parses candidates, replaces the store via
`replaceLinks`, and returns `newLinks.length`. -/
def parseAndAddRcData (idGen : Nat → JStr) (now : JStr) (old : List StoredLink)
    (rcData : JStr) : List StoredLink × Nat :=
  ((replaceLinksFn idGen now old (rcCandidates rcData)).1, (rcCandidates rcData).length)

/-! ## Platform URL model

The repository validates and canonicalizes URLs through the host platform's
WHATWG `URL` constructor (`new URL(s)` and `.href`).  The fragment of that
parser exercised here — absolute `http://` / `https://` URLs with a plain
host, no userinfo and no port — is modelled directly: the constructor throws
exactly when the input (after trimming) is not of that shape or its host is
empty or contains a forbidden host code point, and `.href` lower-cases the
scheme and host and serializes an empty path as `/`. -/

/-- WHATWG forbidden host code points (the subset relevant to plain hosts). -/
def hostForbidden (c : Char) : Bool :=
  c ∈ [' ', '\t', '\n', '\r', '#', '/', ':', '<', '>', '?', '@', '[', ']', '^', '|', '%', '\\']

/-- Whether `new URL(s)` succeeds, for the `http(s)`-shaped inputs used by
this repository (see the section comment above). -/
def urlParseOk (s : JStr) : Bool :=
  let t := jsTrim s
  if (strChars "https://").isPrefixOf t ∨ (strChars "http://").isPrefixOf t then
    let afterScheme := if (strChars "https://").isPrefixOf t then t.drop 8 else t.drop 7
    let host := afterScheme.takeWhile fun c => ¬ (c = '/' ∨ c = '?' ∨ c = '#')
    host ≠ [] && host.all fun c => ¬ hostForbidden c
  else false

/-- `new URL(s).href` for the same fragment: `none` when the constructor
throws, otherwise the serialized URL (lower-cased scheme and host, empty path
rendered as `/`). -/
def urlHref (s : JStr) : Option JStr :=
  let t := jsTrim s
  if urlParseOk t then
    let isHttps := (strChars "https://").isPrefixOf t
    let afterScheme := if isHttps then t.drop 8 else t.drop 7
    let host := afterScheme.takeWhile fun c => ¬ (c = '/' ∨ c = '?' ∨ c = '#')
    let rest := afterScheme.drop host.length
    some ((if isHttps then strChars "https://" else strChars "http://")
      ++ toLowerStr host ++ (if rest = [] then ['/'] else rest))
  else none

/-! ## Server-side RC codec (server.js) -/

/-- `isValidUrl(url)` (server.js, lines 120-127): strict validation via
`new URL(url.startsWith('http') ? url : 'https://' + url)`. -/
def isValidUrl (url : JStr) : Bool :=
  urlParseOk (if (strChars "http").isPrefixOf url then url else strChars "https://" ++ url)

/-- `normalizeUrl(url)` (server.js, lines 134-139): prefix `https://` when the
string does not start with `http`. -/
def serverNormalizeUrl (url : JStr) : JStr :=
  if ¬ (strChars "http").isPrefixOf url then strChars "https://" ++ url else url

/-- The id string `rc_${index}_${Date.now()}` of a parsed RC link, with
`Date.now()` supplied as `nowMs`. -/
def mkRcId (nowMs : Nat) (index : Nat) : JStr :=
  strChars "rc_" ++ Nat.toDigits 10 index ++ strChars "_" ++ Nat.toDigits 10 nowMs

/-- One iteration of the `lines.forEach` of `parseRcFile` (server.js,
lines 79-110); `index` is the zero-based line index.  Returns `none` when the
line is blank, a comment, too short, or fails URL validation (the source
skips such lines without error). -/
def parseRcLine (nowMs : Nat) (index : Nat) (line : JStr) : Option RcLink :=
  let trimmedLine := jsTrim line
  if trimmedLine = [] ∨ (strChars "#").isPrefixOf trimmedLine then none
  else
    let parts := (splitOnChar ',' trimmedLine).map jsTrim
    if parts.length ≥ 2 then
      let name := parts.getD 0 []
      let url := parts.getD 1 []
      let tagParts := parts.drop 2
      let tags := if tagParts.length > 0 then
          ((splitOnChar ',' (joinWith [','] tagParts)).map jsTrim).filter (· ≠ [])
        else []
      if name ≠ [] ∧ isValidUrl url then
        some { id := mkRcId nowMs index
               name := name
               url := serverNormalizeUrl url
               tags := tags
               lineNumber := index + 1 }
      else none
    else none

/-- `parseRcFile(content)` (server.js, lines 75-113): split on newlines and
collect the successfully parsed links. -/
def parseRcFile (nowMs : Nat) (content : JStr) : List RcLink :=
  (splitOnChar '\n' content).enum.filterMap fun p => parseRcLine nowMs p.1 p.2

/-! ## Server `POST /api/rc/append` handler (server.js, lines 245-301) -/

/-- The set of URL keys extracted from the existing RC file content:
non-blank trimmed lines, field 1 of the comma-split (or empty), trimmed and
lower-cased. -/
def existingUrlSet (content : JStr) : List JStr :=
  ((((splitOnChar '\n' content).map jsTrim).filter (· ≠ [])).map
    fun l => (splitOnChar ',' l).getD 1 []).map keyOf

/-- The CSV line appended for an accepted candidate: the name with commas
replaced by spaces and trimmed, the raw url, and the flat tags (non-empty tags
not containing the hierarchy separator). -/
def encodeAppendLine (link : Candidate) : JStr :=
  let safeName := jsTrim (link.name.map fun c => if c = ',' then ' ' else c)
  let simpleTags := link.tags.filter fun t => t ≠ [] && ¬ hasInfix (strChars " > ") t
  joinWith [','] (safeName :: link.url :: simpleTags)

/-- The `for (const link of links)` loop of the append handler, threading the
`existingUrls` set and collecting `newLines`. -/
def appendLoop : List Candidate → List JStr → List JStr
  | [], _ => []
  | link :: rest, seen =>
    if link.url = [] ∨ link.name = [] then appendLoop rest seen
    else if ¬ (strChars "http").isPrefixOf (keyOf link.url) then appendLoop rest seen
    else if keyOf link.url ∈ seen then appendLoop rest seen
    else encodeAppendLine link :: appendLoop rest (keyOf link.url :: seen)

/-- Result of one `POST /api/rc/append` call. -/
structure AppendResult where
  content : JStr
  added : Nat
  skipped : Nat
deriving Repr, DecidableEq

/-- The append handler as a function of the existing file content and the
posted candidates: when no line survives the file is untouched and
`{added: 0, skipped: links.length}` is reported; otherwise the new lines are
appended (with a separating newline when the file does not end in one) and
`{added, skipped}` counted. -/
def rcAppend (existing : JStr) (links : List Candidate) : AppendResult :=
  let newLines := appendLoop links (existingUrlSet existing)
  if newLines = [] then { content := existing, added := 0, skipped := links.length }
  else
    let needsNewline := existing.length > 0 && ¬ (strChars "\n").isSuffixOf existing
    { content := existing ++ (if needsNewline then strChars "\n" else [])
        ++ joinWith (strChars "\n") newLines ++ strChars "\n"
      added := newLines.length
      skipped := links.length - newLines.length }

/-! ## Bookmark importer (js/utils/shortcuts.js, BookmarkImporter) -/

/-- The run-collapsing step of `name.replace(/\s+/g, ' ')`: every maximal run
of whitespace becomes a single space. -/
def collapseWS : JStr → JStr
  | [] => []
  | [c] => [if isWS c then ' ' else c]
  | c₁ :: c₂ :: cs =>
    if isWS c₁ ∧ isWS c₂ then collapseWS (c₂ :: cs)
    else (if isWS c₁ then ' ' else c₁) :: collapseWS (c₂ :: cs)

/-- `sanitizeName(name)` (shortcuts.js, lines 578-584): replace CR/LF/TAB by
spaces, collapse whitespace runs, trim, truncate to 100 units. -/
def sanitizeName (name : JStr) : JStr :=
  (jsTrim (collapseWS (name.map fun c =>
    if c = '\r' ∨ c = '\n' ∨ c = '\t' then ' ' else c))).take 100

/-- `normalizeUrl(url)` of the importer (shortcuts.js, lines 591-603):
`new URL(url).href`, retried with an `https://` prefix, falling back to the
original string. -/
def bmNormalizeUrl (url : JStr) : JStr :=
  match urlHref url with
  | some href => href
  | none =>
    match urlHref (strChars "https://" ++ url) with
    | some href => href
    | none => url

/-- The special container folder names of `processTags`. -/
def specialTagSet : List JStr :=
  [strChars "Bookmarks", strChars "북마크",
   strChars "북마크바", strChars "Bookmarks Bar", strChars "Bookmarks Toolbar",
   strChars "기타 북마크", strChars "Other Bookmarks", strChars "Other",
   strChars "Mobile Bookmarks", strChars "모바일 북마크"]

/-- The body of the `for (let i = 0; ...)` loop of `processTags` at index `i`:
the tags pushed for that index. -/
def processTagsAt (rawTags : List JStr) (i : Nat) : List JStr :=
  let tagPart := jsTrim (rawTags.getD i [])
  if tagPart ≠ [] ∧ tagPart ∉ specialTagSet then
    let flat := [tagPart]
    if i > 0 then
      let hierarchicalTag := joinWith (strChars " > ") (rawTags.take (i + 1))
      if hierarchicalTag ≠ tagPart then
        let startsWithSpecial := jsTrim (rawTags.getD 0 []) ∈ specialTagSet
        let cleanedHierarchicalTag :=
          if startsWithSpecial then joinWith (strChars " > ") ((rawTags.take (i + 1)).drop 1)
          else hierarchicalTag
        if cleanedHierarchicalTag ≠ [] then flat ++ [cleanedHierarchicalTag] else flat
      else flat
    else flat
  else []

/-- `processTags(rawTags)` (shortcuts.js, lines 610-648): flat and
hierarchical tags with special containers stripped, deduplicated, with the
sentinel tag `"미분류"` for empty results. -/
def processTags (rawTags : List JStr) : List JStr :=
  if rawTags.length = 0 then [strChars "미분류"]
  else
    let processedTags := (List.range rawTags.length).flatMap (processTagsAt rawTags)
    if processedTags.length > 0 then jsSetDedup processedTags else [strChars "미분류"]

/-- A raw bookmark record `{name, url, tags (folder path), description}` as
emitted by the source parsers. -/
structure RawBookmark where
  name : JStr
  url : JStr
  tags : List JStr
  description : JStr := []
deriving Repr, DecidableEq

/-- A normalized bookmark produced by `processBookmarks`. -/
structure ProcessedBookmark where
  name : JStr
  url : JStr
  tags : List JStr
  description : JStr
  source : JStr
  importedAt : JStr
deriving Repr, DecidableEq

/-- The URL-dedup filter at the end of `processBookmarks`: keep the first
occurrence of each lower-cased url. -/
def dedupByLowerUrl : List ProcessedBookmark → List JStr → List ProcessedBookmark
  | [], _ => []
  | b :: bs, seen =>
    if toLowerStr b.url ∈ seen then dedupByLowerUrl bs seen
    else b :: dedupByLowerUrl bs (toLowerStr b.url :: seen)

/-- `processBookmarks(rawBookmarks)` (shortcuts.js, lines 549-571): drop
records without url or name, sanitize/normalize/tag them, then dedup by
lower-cased url. -/
def processBookmarks (importNow : JStr) (rawBookmarks : List RawBookmark) : List ProcessedBookmark :=
  let processed := (rawBookmarks.filter fun b => b.url ≠ [] && b.name ≠ []).map fun b =>
    { name := sanitizeName b.name
      url := bmNormalizeUrl b.url
      tags := processTags b.tags
      description := b.description
      source := strChars "import"
      importedAt := importNow }
  dedupByLowerUrl processed []

/-! ## Client RC serialization (js/app.js, `saveRcNow`, lines 314-322) -/

/-- The CSV line `[safeName, l.url, ...flatTags].join(',')` built by
`saveRcNow` for one stored link: commas in the name replaced by spaces, and
only tags not containing the hierarchy separator serialized. -/
def saveRcLine (name url : JStr) (tags : List JStr) : JStr :=
  let safeName := jsTrim (name.map fun c => if c = ',' then ' ' else c)
  let flatTags := tags.filter fun t => ¬ hasInfix (strChars " > ") t
  joinWith [','] (safeName :: url :: flatTags)

/-! ## Lemmas about the string model -/

theorem splitOnChar_cons_eq (sep : Char) (c : Char) (cs : JStr) :
    splitOnChar sep (c :: cs) =
      if c = sep then [] :: splitOnChar sep cs
      else (c :: (splitOnChar sep cs).headI) :: (splitOnChar sep cs).tail := by
  simp [splitOnChar]

theorem splitOnChar_ne_nil (sep : Char) : ∀ l : JStr, splitOnChar sep l ≠ []
  | [] => by simp [splitOnChar]
  | c :: cs => by
    rw [splitOnChar_cons_eq]
    split <;> simp

theorem splitOnChar_append_sep (sep : Char) : ∀ xs ys : JStr,
    splitOnChar sep (xs ++ sep :: ys) = splitOnChar sep xs ++ splitOnChar sep ys
  | [], ys => by
    cases h : splitOnChar sep ys with
    | nil => exact absurd h (splitOnChar_ne_nil sep ys)
    | cons r rs => simp [splitOnChar, h]
  | c :: xs, ys => by
    have ih := splitOnChar_append_sep sep xs ys
    cases hx : splitOnChar sep xs with
    | nil => exact absurd hx (splitOnChar_ne_nil sep xs)
    | cons x0 xrest =>
      by_cases hc : c = sep
      · simp [List.cons_append, splitOnChar_cons_eq, hc, ih, hx]
      · simp [List.cons_append, splitOnChar_cons_eq, hc, ih, hx, List.headI]

theorem splitOnChar_of_not_mem (sep : Char) : ∀ xs : JStr, sep ∉ xs → splitOnChar sep xs = [xs]
  | [], _ => rfl
  | c :: cs, h => by
    have hc : ¬ c = sep := fun hcs => h (hcs ▸ List.mem_cons_self c cs)
    have ih := splitOnChar_of_not_mem sep cs (fun hm => h (List.mem_cons_of_mem c hm))
    simp [splitOnChar_cons_eq, hc, ih, List.headI]

theorem mem_joinWith {c : Char} {sep : JStr} :
    ∀ {ls : List JStr}, c ∈ joinWith sep ls → c ∈ sep ∨ ∃ l ∈ ls, c ∈ l
  | [], h => by simp [joinWith] at h
  | [x], h => by
    simp [joinWith] at h
    exact Or.inr ⟨x, by simp, h⟩
  | x :: y :: xs, h => by
    simp only [joinWith, List.mem_append] at h
    rcases h with (hx | hsep) | hrest
    · exact Or.inr ⟨x, by simp, hx⟩
    · exact Or.inl hsep
    · rcases mem_joinWith hrest with hs | ⟨l, hl, hc⟩
      · exact Or.inl hs
      · exact Or.inr ⟨l, List.mem_cons_of_mem x hl, hc⟩

theorem splitOnChar_joinWith_block (sep : Char) :
    ∀ ls : List JStr, ls ≠ [] → (∀ l ∈ ls, sep ∉ l) →
      splitOnChar sep (joinWith [sep] ls ++ [sep]) = ls ++ [[]]
  | [], h, _ => absurd rfl h
  | [x], _, hm => by
    have hx : sep ∉ x := hm x (by simp)
    have : (x ++ [sep] : JStr) = x ++ sep :: [] := rfl
    rw [joinWith, this, splitOnChar_append_sep, splitOnChar_of_not_mem sep x hx]
    rfl
  | x :: y :: xs, _, hm => by
    have hx : sep ∉ x := hm x (by simp)
    have ih := splitOnChar_joinWith_block sep (y :: xs) (by simp)
      (fun l hl => hm l (List.mem_cons_of_mem x hl))
    have assoc : (joinWith [sep] (x :: y :: xs) ++ [sep] : JStr)
        = x ++ sep :: (joinWith [sep] (y :: xs) ++ [sep]) := by
      simp [joinWith]
    rw [assoc, splitOnChar_append_sep, splitOnChar_of_not_mem sep x hx, ih]
    rfl

theorem trimLeft_append_cons (xs ys : JStr) (c : Char) (hx : trimLeft xs = xs)
    (hc : isWS c = false) : trimLeft (xs ++ c :: ys) = xs ++ c :: ys := by
  unfold trimLeft at *
  rw [List.dropWhile_append]
  cases xs with
  | nil => simp [List.dropWhile_cons, hc]
  | cons a l =>
    have : List.dropWhile isWS (a :: l) = a :: l := hx
    simp [this]

theorem trimRight_append_cons (xs ys : JStr) (c : Char) (hc : isWS c = false) :
    trimRight (xs ++ c :: ys) = xs ++ c :: trimRight ys := by
  unfold trimRight
  rw [show (xs ++ c :: ys : JStr).reverse = ys.reverse ++ c :: xs.reverse by simp,
    List.dropWhile_append]
  by_cases h : List.dropWhile isWS ys.reverse = []
  · simp [h, List.dropWhile_cons, hc]
  · simp only [List.isEmpty_iff, h, if_neg, ite_false]
    simp

theorem trimRight_append_ws (u w : JStr) (hw : ∀ c ∈ w, isWS c = true) :
    trimRight (u ++ w) = trimRight u := by
  unfold trimRight
  rw [List.reverse_append, List.dropWhile_append,
    List.dropWhile_eq_nil_iff.mpr (by simpa using fun c hc => hw c hc)]
  simp

theorem head_trimLeft_not_ws : ∀ (y : JStr) (d : Char) (t : JStr),
    trimLeft y = d :: t → isWS d = false
  | [], d, t, h => by simp [trimLeft] at h
  | c :: cs, d, t, h => by
    rw [trimLeft, List.dropWhile_cons] at h
    by_cases hc : isWS c = true
    · exact head_trimLeft_not_ws cs d t (by simpa [hc] using h)
    · rw [if_neg hc] at h
      cases h
      exact eq_false_of_ne_true hc

theorem trimRight_prefix_self (x : JStr) : trimRight x <+: x := by
  rw [← List.reverse_suffix, trimRight, List.reverse_reverse]
  exact List.dropWhile_suffix isWS

theorem trimLeft_jsTrim (y : JStr) : trimLeft (jsTrim y) = jsTrim y := by
  cases h : jsTrim y with
  | nil => simp [trimLeft]
  | cons d t =>
    have hpre : jsTrim y <+: trimLeft y := by
      rw [jsTrim] at *
      exact trimRight_prefix_self (trimLeft y)
    obtain ⟨rest, hrest⟩ := hpre
    rw [h] at hrest
    have hd : isWS d = false := head_trimLeft_not_ws y d (t ++ rest) (by rw [← hrest]; rfl)
    rw [trimLeft, List.dropWhile_cons, hd]
    simp

theorem mem_trimRight {c : Char} {x : JStr} (h : c ∈ trimRight x) : c ∈ x :=
  (trimRight_prefix_self x).sublist.mem h

theorem mem_jsTrim {c : Char} {x : JStr} (h : c ∈ jsTrim x) : c ∈ x := by
  rw [jsTrim] at h
  exact (List.dropWhile_suffix isWS).sublist.mem (mem_trimRight h)

theorem trimRight_decomp (x : JStr) : ∃ w, x = trimRight x ++ w ∧ ∀ c ∈ w, isWS c = true := by
  refine ⟨(List.takeWhile isWS x.reverse).reverse, ?_, ?_⟩
  · rw [trimRight, ← List.reverse_append, List.takeWhile_append_dropWhile, List.reverse_reverse]
  · intro c hc
    rw [List.mem_reverse] at hc
    exact List.mem_takeWhile_imp hc

theorem jsTrim_append_ws (a w : JStr) (hw : ∀ c ∈ w, isWS c = true) :
    jsTrim (a ++ w) = jsTrim a := by
  unfold jsTrim trimLeft
  rw [List.dropWhile_append]
  by_cases h : List.dropWhile isWS a = []
  · rw [h, List.dropWhile_eq_nil_iff.mpr hw]
    simp
  · simp only [List.isEmpty_iff, h, if_neg, ite_false]
    exact trimRight_append_ws _ w hw

theorem jsTrim_trimRight (x : JStr) : jsTrim (trimRight x) = jsTrim x := by
  obtain ⟨w, hx, hw⟩ := trimRight_decomp x
  conv_rhs => rw [hx]
  rw [jsTrim_append_ws _ w hw]

theorem keyOf_trimRight (u : JStr) : keyOf (trimRight u) = keyOf u := by
  unfold keyOf
  rw [jsTrim_trimRight]

theorem jsTrim_name_comma (sn X : JStr) (hsn : trimLeft sn = sn) :
    jsTrim (sn ++ ',' :: X) = sn ++ ',' :: trimRight X := by
  unfold jsTrim
  rw [trimLeft_append_cons sn X ',' hsn (by decide),
    trimRight_append_cons sn X ',' (by decide)]

theorem not_mem_safeName {name : JStr} (h : '\n' ∉ name) :
    '\n' ∉ jsTrim (name.map fun c => if c = ',' then ' ' else c) := by
  intro hmem
  have hmap := mem_jsTrim hmem
  rw [List.mem_map] at hmap
  obtain ⟨a, ha, hfa⟩ := hmap
  by_cases hc : a = ','
  · simp [hc] at hfa
  · rw [if_neg hc] at hfa
    exact h (hfa ▸ ha)

theorem comma_not_mem_safeName (name : JStr) :
    ',' ∉ jsTrim (name.map fun c => if c = ',' then ' ' else c) := by
  intro hmem
  have hmap := mem_jsTrim hmem
  rw [List.mem_map] at hmap
  obtain ⟨a, ha, hfa⟩ := hmap
  by_cases hc : a = ','
  · simp [hc] at hfa
  · rw [if_neg hc] at hfa
    exact hc (hfa ▸ rfl)

theorem not_mem_encodeAppendLine {c : Candidate} (hn : '\n' ∉ c.name) (hu : '\n' ∉ c.url)
    (ht : ∀ t ∈ c.tags, '\n' ∉ t) : '\n' ∉ encodeAppendLine c := by
  intro hmem
  unfold encodeAppendLine at hmem
  rcases mem_joinWith hmem with hs | ⟨l, hl, hc⟩
  · simp at hs
  · simp only [List.mem_cons] at hl
    rcases hl with hl | hl | hl
    · exact not_mem_safeName hn (hl ▸ hc)
    · exact hu (hl ▸ hc)
    · exact ht l (List.mem_of_mem_filter hl) hc

theorem encodeAppendLine_eq (c : Candidate) :
    encodeAppendLine c
      = jsTrim (c.name.map fun ch => if ch = ',' then ' ' else ch) ++ ',' ::
        joinWith [','] (c.url ::
          c.tags.filter fun t => t ≠ [] && ¬ hasInfix (strChars " > ") t) := by
  unfold encodeAppendLine
  cases c.tags.filter fun t => t ≠ [] && ¬ hasInfix (strChars " > ") t with
  | nil => simp [joinWith]
  | cons t ts => simp [joinWith]

theorem jsTrim_encodeAppendLine_ne_nil (c : Candidate) : jsTrim (encodeAppendLine c) ≠ [] := by
  rw [encodeAppendLine_eq,
    jsTrim_name_comma _ _ (trimLeft_jsTrim _)]
  simp

theorem urlField_encodeAppendLine (c : Candidate) (hcomma : ',' ∉ c.url) :
    keyOf ((splitOnChar ',' (jsTrim (encodeAppendLine c))).getD 1 []) = keyOf c.url := by
  rw [encodeAppendLine_eq, jsTrim_name_comma _ _ (trimLeft_jsTrim _)]
  have hsn : ',' ∉ jsTrim (c.name.map fun ch => if ch = ',' then ' ' else ch) :=
    comma_not_mem_safeName c.name
  cases hts : c.tags.filter fun t => t ≠ [] && ¬ hasInfix (strChars " > ") t with
  | nil =>
    rw [show joinWith [','] (c.url :: ([] : List JStr)) = c.url from rfl,
      splitOnChar_append_sep, splitOnChar_of_not_mem ',' _ hsn,
      splitOnChar_of_not_mem ',' _ (fun hm => hcomma (mem_trimRight hm))]
    simpa using keyOf_trimRight c.url
  | cons t ts =>
    rw [show joinWith [','] (c.url :: t :: ts) = c.url ++ ',' :: joinWith [','] (t :: ts) by
        simp [joinWith],
      trimRight_append_cons c.url _ ',' (by decide),
      show (jsTrim (c.name.map fun ch => if ch = ',' then ' ' else ch)
          ++ ',' :: (c.url ++ ',' :: trimRight (joinWith [','] (t :: ts))) : JStr)
        = (jsTrim (c.name.map fun ch => if ch = ',' then ' ' else ch)
          ++ ',' :: c.url) ++ ',' :: trimRight (joinWith [','] (t :: ts)) by simp,
      splitOnChar_append_sep,
      splitOnChar_append_sep ',' (jsTrim (c.name.map fun ch => if ch = ',' then ' ' else ch)) c.url,
      splitOnChar_of_not_mem ',' _ hsn,
      splitOnChar_of_not_mem ',' _ hcomma]
    simp

theorem mem_existingUrlSet_of_line {content line : JStr}
    (hl : line ∈ splitOnChar '\n' content) (hne : jsTrim line ≠ []) :
    keyOf ((splitOnChar ',' (jsTrim line)).getD 1 []) ∈ existingUrlSet content := by
  unfold existingUrlSet
  refine List.mem_map.mpr ⟨(splitOnChar ',' (jsTrim line)).getD 1 [], ?_, rfl⟩
  refine List.mem_map.mpr ⟨jsTrim line, ?_, rfl⟩
  exact List.mem_filter.mpr ⟨List.mem_map.mpr ⟨line, hl, rfl⟩, by simpa using hne⟩

theorem lines_glue (pre : JStr) (newLines : List JStr)
    (hne : newLines ≠ []) (hnl : ∀ l ∈ newLines, '\n' ∉ l)
    (hpre : pre = [] ∨ ∃ e, pre = e ++ ['\n']) :
    ∃ P, splitOnChar '\n' (pre ++ joinWith ['\n'] newLines ++ ['\n'])
      = P ++ (newLines ++ [[]]) := by
  have hblock : splitOnChar '\n' (joinWith ['\n'] newLines ++ ['\n']) = newLines ++ [[]] :=
    splitOnChar_joinWith_block '\n' newLines hne hnl
  rcases hpre with hpre | ⟨e, hpre⟩
  · refine ⟨[], ?_⟩
    subst hpre
    simpa using hblock
  · refine ⟨splitOnChar '\n' e, ?_⟩
    subst hpre
    rw [show ((e ++ ['\n']) ++ joinWith ['\n'] newLines ++ ['\n'] : JStr)
        = e ++ '\n' :: (joinWith ['\n'] newLines ++ ['\n']) by simp,
      splitOnChar_append_sep, hblock]

theorem appendLoop_nil_of_seen : ∀ (batch : List Candidate) (seen : List JStr),
    (∀ c ∈ batch, keyOf c.url ∈ seen) → appendLoop batch seen = []
  | [], _, _ => rfl
  | c :: rest, seen, h => by
    have hc := h c (List.mem_cons_self c rest)
    have ih := appendLoop_nil_of_seen rest seen fun c' hc' => h c' (List.mem_cons_of_mem c hc')
    unfold appendLoop
    split_ifs with h1 h2
    · exact ih
    · exact ih
    · exact ih

theorem appendLoop_map : ∀ (batch : List Candidate) (seen : List JStr),
    (∀ c ∈ batch, c.url ≠ [] ∧ c.name ≠ [] ∧ (strChars "http").isPrefixOf (keyOf c.url) = true) →
    (batch.map fun c => keyOf c.url).Nodup →
    (∀ c ∈ batch, keyOf c.url ∉ seen) →
    appendLoop batch seen = batch.map encodeAppendLine
  | [], _, _, _, _ => rfl
  | c :: rest, seen, hok, hnd, hns => by
    obtain ⟨hu, hn, hp⟩ := hok c (List.mem_cons_self c rest)
    have hnd' : (∀ x ∈ rest, ¬ keyOf x.url = keyOf c.url)
        ∧ (rest.map fun c => keyOf c.url).Nodup := by simpa using hnd
    have ih := appendLoop_map rest (keyOf c.url :: seen)
      (fun c' h' => hok c' (List.mem_cons_of_mem c h'))
      hnd'.2
      (fun c' h' => by
        intro hmem
        rcases List.mem_cons.mp hmem with heq | hmem'
        · exact hnd'.1 c' h' heq
        · exact hns c' (List.mem_cons_of_mem c h') hmem')
    rw [List.map_cons]
    unfold appendLoop
    split_ifs with h1 h2
    · exact absurd h1 (by simp [hu, hn])
    · exact absurd h2 (hns c (List.mem_cons_self c rest))
    · rw [ih]

theorem rcAppend_eq_of_loop {existing : JStr} {batch : List Candidate} {newLines : List JStr}
    (hloop : appendLoop batch (existingUrlSet existing) = newLines) (hne : newLines ≠ []) :
    rcAppend existing batch =
      { content := existing
          ++ (if existing.length > 0 && ¬ (strChars "\n").isSuffixOf existing
              then strChars "\n" else [])
          ++ joinWith (strChars "\n") newLines ++ strChars "\n"
        added := newLines.length
        skipped := batch.length - newLines.length } := by
  simp only [rcAppend, hloop]
  rw [if_neg hne]

/-- C2 (amended): append-mode reconciliation is idempotent for batches of
valid candidates (non-empty name and url, trimmed lower-cased url starting
with `http`) with pairwise-distinct url keys, none already in the file,
provided the delimiter characters cannot be injected: no comma in any url and
no newline in any name, url or tag.  Then the first append reports
`added = N, skipped = 0` and the second append of the same batch reports
`added = 0, skipped = N` and leaves the file content unchanged.  (The comma
restriction is forced: see the counterexample, where a comma inside a url is
truncated by the re-read dedup key and the second append appends again.) -/
theorem claim_C2_append_idempotent (existing : JStr) (batch : List Candidate)
    (hok : ∀ c ∈ batch,
      c.url ≠ [] ∧ c.name ≠ [] ∧ (strChars "http").isPrefixOf (keyOf c.url) = true)
    (hclean : ∀ c ∈ batch,
      ',' ∉ c.url ∧ '\n' ∉ c.url ∧ '\n' ∉ c.name ∧ ∀ t ∈ c.tags, '\n' ∉ t)
    (hnodup : (batch.map fun c => keyOf c.url).Nodup)
    (hfresh : ∀ c ∈ batch, keyOf c.url ∉ existingUrlSet existing) :
    (rcAppend existing batch).added = batch.length
    ∧ (rcAppend existing batch).skipped = 0
    ∧ rcAppend (rcAppend existing batch).content batch
        = { content := (rcAppend existing batch).content, added := 0, skipped := batch.length } := by
  have hloop : appendLoop batch (existingUrlSet existing) = batch.map encodeAppendLine :=
    appendLoop_map batch _ hok hnodup hfresh
  cases batch with
  | nil =>
    refine ⟨?_, ?_, ?_⟩ <;> simp [rcAppend, appendLoop]
  | cons c0 rest =>
    have hne : (c0 :: rest).map encodeAppendLine ≠ [] := by simp
    have h1 := rcAppend_eq_of_loop hloop hne
    have hadded : (rcAppend existing (c0 :: rest)).added = (c0 :: rest).length := by
      rw [h1]
      simp
    have hskip : (rcAppend existing (c0 :: rest)).skipped = 0 := by
      rw [h1]
      simp
    refine ⟨hadded, hskip, ?_⟩
    -- every line of the appended block is newline-free
    have hnl : ∀ l ∈ (c0 :: rest).map encodeAppendLine, '\n' ∉ l := by
      intro l hl
      obtain ⟨c, hc, hlc⟩ := List.mem_map.mp hl
      obtain ⟨-, hu, hn, ht⟩ := hclean c hc
      exact hlc ▸ not_mem_encodeAppendLine hn hu ht
    -- the glued prefix is empty or ends in a newline
    have hpre : (existing
        ++ (if existing.length > 0 && ¬ (strChars "\n").isSuffixOf existing
            then strChars "\n" else []) : JStr) = []
        ∨ ∃ e, (existing
            ++ (if existing.length > 0 && ¬ (strChars "\n").isSuffixOf existing
                then strChars "\n" else []) : JStr) = e ++ ['\n'] := by
      by_cases hemp : existing = []
      · subst hemp
        left
        simp
      · by_cases hsuf : (strChars "\n").isSuffixOf existing
        · obtain ⟨e, he⟩ := List.isSuffixOf_iff_suffix.mp hsuf
          right
          refine ⟨e, ?_⟩
          rw [show (existing.length > 0 && ¬ (strChars "\n").isSuffixOf existing) = false by
              simp [hsuf]]
          show existing ++ [] = e ++ ['\n']
          rw [List.append_nil]
          exact he.symm
        · right
          refine ⟨existing, ?_⟩
          rw [show (existing.length > 0 && ¬ (strChars "\n").isSuffixOf existing) = true by
              simp [hsuf, List.length_pos, hemp]]
          rfl
    -- decompose the lines of the new content
    obtain ⟨P, hP⟩ := lines_glue _ ((c0 :: rest).map encodeAppendLine) hne hnl hpre
    -- hP is about pre ++ join ++ ['\n']; rewrite to the rcAppend content shape
    have hcontent : (rcAppend existing (c0 :: rest)).content
        = (existing
            ++ (if existing.length > 0 && ¬ (strChars "\n").isSuffixOf existing
                then strChars "\n" else []))
          ++ joinWith ['\n'] ((c0 :: rest).map encodeAppendLine) ++ ['\n'] := by
      rw [h1]
      simp [strChars]
    -- each batch key is now in the url set of the new content
    have hmem : ∀ c ∈ c0 :: rest,
        keyOf c.url ∈ existingUrlSet (rcAppend existing (c0 :: rest)).content := by
      intro c hc
      have hline : encodeAppendLine c
          ∈ splitOnChar '\n' (rcAppend existing (c0 :: rest)).content := by
        rw [hcontent, hP]
        exact List.mem_append.mpr (Or.inr
          (List.mem_append.mpr (Or.inl (List.mem_map_of_mem _ hc))))
      have hms := mem_existingUrlSet_of_line hline (jsTrim_encodeAppendLine_ne_nil c)
      rwa [urlField_encodeAppendLine c (hclean c hc).1] at hms
    have hloop2 : appendLoop (c0 :: rest)
        (existingUrlSet (rcAppend existing (c0 :: rest)).content) = [] :=
      appendLoop_nil_of_seen _ _ hmem
    generalize hC : (rcAppend existing (c0 :: rest)).content = C at hloop2 ⊢
    simp only [rcAppend, hloop2]
    simp

/-! ## Spec-side characterization of `replaceLinks` (for claim C1)

The following definitions restate the specification's wording — filter the
batch, deduplicate by url key first-occurrence-wins, then enumerate with
fresh ids and sequential orders — and are proved equal to the embedded
source function. -/

/-- Spec wording: an incoming item is kept only if it has both a name and a
url and its url, trimmed and lower-cased, starts with `http`. -/
def specKeep (c : Candidate) : Bool :=
  c.name ≠ [] && c.url ≠ [] && (strChars "http").isPrefixOf (keyOf c.url)

/-- Spec wording: within-batch duplicates by the url key are dropped, first
occurrence winning (`seen` carries the keys already taken). -/
def specDedup : List Candidate → List JStr → List Candidate
  | [], _ => []
  | c :: cs, seen =>
    if keyOf c.url ∈ seen then specDedup cs seen
    else c :: specDedup cs (keyOf c.url :: seen)

/-- Spec wording: each surviving item gets a fresh id and sequential order,
starting at `n`. -/
def buildStored (idGen : Nat → JStr) (now : JStr) : Nat → List Candidate → List StoredLink
  | _, [] => []
  | n, c :: cs => mkStored idGen now n c :: buildStored idGen now (n + 1) cs

/-- The spec's description of the collection `replaceLinks` rebuilds. -/
def specReplace (idGen : Nat → JStr) (now : JStr) (batch : List Candidate) : List StoredLink :=
  buildStored idGen now 0 (specDedup (batch.filter specKeep) [])

theorem replaceLinksGo_eq_spec (idGen : Nat → JStr) (now : JStr) :
    ∀ (batch : List Candidate) (seen : List JStr) (n : Nat),
      replaceLinksGo idGen now batch seen n
        = buildStored idGen now n (specDedup (batch.filter specKeep) seen)
  | [], _, _ => rfl
  | c :: rest, seen, n => by
    have ih := fun seen n => replaceLinksGo_eq_spec idGen now rest seen n
    by_cases h1 : c.url = [] ∨ c.name = []
    · have hk : specKeep c = false := by
        rcases h1 with h | h <;> simp [specKeep, h]
      rw [List.filter_cons_of_neg (by simp [hk])]
      simp only [replaceLinksGo]
      rw [if_pos h1, ih]
    · push_neg at h1
      by_cases h2 : (strChars "http").isPrefixOf (keyOf c.url)
      · have hk : specKeep c = true := by simp [specKeep, h1.1, h1.2, h2]
        rw [List.filter_cons_of_pos (by simp [hk])]
        by_cases h3 : keyOf c.url ∈ seen
        · simp only [replaceLinksGo, specDedup]
          rw [if_neg (by simp [h1.1, h1.2]), if_neg (by simpa using h2), if_pos h3,
            if_pos h3, ih]
        · simp only [replaceLinksGo, specDedup]
          rw [if_neg (by simp [h1.1, h1.2]), if_neg (by simpa using h2), if_neg h3,
            if_neg h3]
          simp only [buildStored]
          rw [ih]
      · have hk : specKeep c = false := by simp [specKeep, h2]
        rw [List.filter_cons_of_neg (by simp [hk])]
        simp only [replaceLinksGo]
        rw [if_neg (by simp [h1.1, h1.2]), if_pos (by simpa using h2), ih]

theorem buildStored_length (idGen : Nat → JStr) (now : JStr) :
    ∀ (n : Nat) (l : List Candidate), (buildStored idGen now n l).length = l.length
  | _, [] => rfl
  | n, c :: cs => by
    rw [buildStored, List.length_cons, List.length_cons, buildStored_length idGen now (n + 1) cs]

theorem buildStored_get (idGen : Nat → JStr) (now : JStr) :
    ∀ (n : Nat) (l : List Candidate) (i : Nat) (h : i < l.length),
      (buildStored idGen now n l).get ⟨i, by rw [buildStored_length]; exact h⟩
        = mkStored idGen now (n + i) (l.get ⟨i, h⟩)
  | n, c :: cs, 0, h => by simp [buildStored]
  | n, c :: cs, i + 1, h => by
    have ih := buildStored_get idGen now (n + 1) cs i (Nat.lt_of_succ_lt_succ h)
    simp only [buildStored, List.get_cons_succ]
    rw [ih]
    congr 1
    omega

theorem buildStored_map_id (idGen : Nat → JStr) (now : JStr) :
    ∀ (n : Nat) (l : List Candidate),
      (buildStored idGen now n l).map (fun s => s.id) = (List.range' n l.length).map idGen
  | _, [] => rfl
  | n, c :: cs => by
    rw [buildStored, List.length_cons, List.range'_succ, List.map_cons, List.map_cons,
      buildStored_map_id idGen now (n + 1) cs]
    rfl

/-! ## The claims -/

/-- C1: for every input batch, `replaceLinks` discards the store's previous
collection and rebuilds it from the batch: the result and return value do not
depend on the old collection; the rebuilt collection is exactly the spec
pipeline (keep only items with a name and a url whose trimmed lower-cased url
starts with `http`, drop within-batch duplicates of the url key first
occurrence winning); each surviving item gets order `i` at position `i`
(sequential from 0), the fresh id `idGen i`, `clickCount 0` and
`lastClicked null` (and `createdAt = now`); ids are pairwise distinct whenever
the id supply is injective; and the function returns the size of the
resulting collection. -/
theorem claim_C1_replaceLinks (idGen : Nat → JStr) (now : JStr) (old : List StoredLink)
    (batch : List Candidate) (hinj : Function.Injective idGen) :
    replaceLinksFn idGen now old batch
      = (specReplace idGen now batch, (specReplace idGen now batch).length)
    ∧ (∀ i (h : i < (specReplace idGen now batch).length),
        ((specReplace idGen now batch).get ⟨i, h⟩).order = i
        ∧ ((specReplace idGen now batch).get ⟨i, h⟩).id = idGen i
        ∧ ((specReplace idGen now batch).get ⟨i, h⟩).clickCount = 0
        ∧ ((specReplace idGen now batch).get ⟨i, h⟩).lastClicked = none
        ∧ ((specReplace idGen now batch).get ⟨i, h⟩).createdAt = now)
    ∧ ((specReplace idGen now batch).map fun s => s.id).Nodup := by
  have heq : replaceLinksFn idGen now old batch
      = (specReplace idGen now batch, (specReplace idGen now batch).length) := by
    unfold replaceLinksFn specReplace
    rw [replaceLinksGo_eq_spec]
  refine ⟨heq, ?_, ?_⟩
  · intro i h
    have hlen : i < (specDedup (batch.filter specKeep) []).length := by
      have := buildStored_length idGen now 0 (specDedup (batch.filter specKeep) [])
      unfold specReplace at h
      omega
    have hget := buildStored_get idGen now 0 (specDedup (batch.filter specKeep) []) i hlen
    unfold specReplace
    rw [show (0 + i : Nat) = i from Nat.zero_add i] at hget
    rw [hget]
    exact ⟨rfl, rfl, rfl, rfl, rfl⟩
  · unfold specReplace
    rw [buildStored_map_id]
    exact (List.nodup_range' 0 _).map hinj

/-- An injective id supply used to witness claim C1. -/
def c1IdGen (n : Nat) : JStr := List.replicate n 'i'

theorem c1IdGen_injective : Function.Injective c1IdGen := by
  intro a b h
  have := congrArg List.length h
  simpa [c1IdGen] using this

/-- A concrete batch used to witness claim C1. -/
def c1Batch : List Candidate :=
  [{ name := strChars "A", url := strChars "https://a.com", tags := [strChars "Dev"] },
   { name := strChars "B", url := strChars "HTTPS://A.com", tags := [] },
   { name := strChars "C", url := strChars "notaurl", tags := [] }]

/-- Witness for claim C1 at a concrete injective id supply and batch. -/
theorem claim_C1_replaceLinks_witness :
    Function.Injective c1IdGen
    ∧ replaceLinksFn c1IdGen (strChars "T") [] c1Batch
      = (specReplace c1IdGen (strChars "T") c1Batch,
         (specReplace c1IdGen (strChars "T") c1Batch).length)
    ∧ ((specReplace c1IdGen (strChars "T") c1Batch).map fun s => s.id).Nodup :=
  ⟨c1IdGen_injective,
   (claim_C1_replaceLinks c1IdGen (strChars "T") [] c1Batch c1IdGen_injective).1,
   (claim_C1_replaceLinks c1IdGen (strChars "T") [] c1Batch c1IdGen_injective).2.2⟩

/-- C3: the tag builder `processTags` is deterministic (it is a pure
function of its input) and on the claim's inputs yields exactly the stated
tag sets: `["Dev","Frontend"]` gives `Dev`, `Frontend` and `Dev > Frontend`;
`["Bookmarks Bar","Dev"]` gives exactly `Dev`, the special root stripped from
both forms; and an empty or entirely-special path gives exactly the sentinel
`미분류`. -/
theorem claim_C3_processTags :
    processTags [strChars "Dev", strChars "Frontend"]
      = [strChars "Dev", strChars "Frontend", strChars "Dev > Frontend"]
    ∧ processTags [strChars "Bookmarks Bar", strChars "Dev"] = [strChars "Dev"]
    ∧ processTags [] = [strChars "미분류"]
    ∧ processTags [strChars "Bookmarks Bar"] = [strChars "미분류"] := by
  refine ⟨?_, ?_, ?_, ?_⟩ <;> decide

/-- C4: RC round-trip for flat tags: encoding the link `X` /
`https://x.com` / `["Dev","Search"]` produces exactly the line
`X,https://x.com,Dev,Search`, and the server-side decode of that line
reproduces the name, the url and the tag list exactly. -/
theorem claim_C4_rc_roundtrip_flat (nowMs : Nat) :
    saveRcLine (strChars "X") (strChars "https://x.com") [strChars "Dev", strChars "Search"]
      = strChars "X,https://x.com,Dev,Search"
    ∧ (parseRcFile nowMs (strChars "X,https://x.com,Dev,Search")).map
        (fun l => (l.name, l.url, l.tags))
      = [(strChars "X", strChars "https://x.com", [strChars "Dev", strChars "Search"])] :=
  ⟨by decide, rfl⟩

/-- A link with one flat and one hierarchical tag, used by claim C5. -/
def c5Cand : Candidate :=
  { name := strChars "X"
    url := strChars "https://x.com"
    tags := [strChars "Dev", strChars "Dev > Frontend"] }

/-- C5: RC encoding is a lossy one-way projection for hierarchical tags: a
link with tags `Dev` and `Dev > Frontend` encodes (both in the client
serializer and in the server append encoder) to a line whose only tag field
is `Dev`, and decoding that line never reconstructs `Dev > Frontend`. -/
theorem claim_C5_rc_lossy_hierarchical (nowMs : Nat) :
    saveRcLine (strChars "X") (strChars "https://x.com")
        [strChars "Dev", strChars "Dev > Frontend"]
      = strChars "X,https://x.com,Dev"
    ∧ encodeAppendLine c5Cand = strChars "X,https://x.com,Dev"
    ∧ (parseRcFile nowMs (strChars "X,https://x.com,Dev")).map (fun l => l.tags)
      = [[strChars "Dev"]]
    ∧ (parseRcFile nowMs (strChars "X,https://x.com,Dev")).all
        (fun l => ¬ l.tags.contains (strChars "Dev > Frontend")) = true :=
  ⟨by decide, by decide, rfl, rfl⟩

/-- C6: `isValid("not a url")` is false even after the `https://` prefixing
attempt, and during file-level decode the line carrying it is skipped
(yielding no record, and no error since the decoder is total) while the
surrounding valid lines are still parsed. -/
theorem claim_C6_url_rejection (nowMs : Nat) :
    isValidUrl (strChars "not a url") = false
    ∧ (parseRcFile nowMs (strChars "A,https://a.com\nB,not a url\nC,https://c.com")).map
        (fun l => (l.name, l.url, l.lineNumber))
      = [(strChars "A", strChars "https://a.com", 1), (strChars "C", strChars "https://c.com", 3)] :=
  ⟨by decide, rfl⟩

/-- The sanitized-name candidate appended by claim C8's scenario. -/
def c8Cand : Candidate :=
  { name := strChars "Foo Bar,Baz"
    url := strChars "https://x.com"
    tags := [] }

/-- C8: name sanitization composes as specified: `"Foo\n\tBar,Baz"`
sanitizes to `"Foo Bar,Baz"` (control characters to spaces, whitespace runs
collapsed, trimmed, truncated to 100 units), and RC encoding then replaces
the comma, so the serialized name field is `"Foo Bar Baz"` — in the server
append encoder as well as in the client serializer. -/
theorem claim_C8_name_sanitization :
    sanitizeName (strChars "Foo\n\tBar,Baz") = strChars "Foo Bar,Baz"
    ∧ encodeAppendLine c8Cand = strChars "Foo Bar Baz,https://x.com"
    ∧ saveRcLine (strChars "Foo Bar,Baz") (strChars "https://x.com") []
      = strChars "Foo Bar Baz,https://x.com" := by
  refine ⟨?_, ?_, ?_⟩ <;> decide

/-- The two trailing-slash/case variant entries of claim C7, as candidates. -/
def c7CandA : Candidate :=
  { name := strChars "A", url := strChars "https://A.com", tags := [] }

/-- The second variant entry of claim C7. -/
def c7CandB : Candidate :=
  { name := strChars "B", url := strChars "https://a.com/", tags := [] }

/-- The raw bookmark forms of the claim C7 entries. -/
def c7RawA : RawBookmark :=
  { name := strChars "A", url := strChars "https://A.com", tags := [] }

/-- The raw bookmark form of the second claim C7 entry. -/
def c7RawB : RawBookmark :=
  { name := strChars "B", url := strChars "https://a.com/", tags := [] }

/-- C7 counterexample: in the bookmark importer's batch dedup
(`processBookmarks`), the entries `https://A.com` and `https://a.com/` ARE
treated as duplicates — only one survives — because `normalizeUrl` runs the
WHATWG `URL` serializer first, which maps both to `https://a.com/`. -/
theorem claim_C7_counterexample :
    (processBookmarks [] [c7RawA, c7RawB]).length = 1
    ∧ bmNormalizeUrl (strChars "https://A.com") = strChars "https://a.com/"
    ∧ bmNormalizeUrl (strChars "https://a.com/") = strChars "https://a.com/" := by
  refine ⟨?_, ?_, ?_⟩ <;> decide

/-- C7 (amended): every dedup key comparison is a literal lower-cased string
comparison, not a normalized-path comparison; in the reconciliation paths
(`replaceLinks` and the server append loop), which compare the raw urls,
`https://A.com` and `https://a.com/` produce distinct keys and both survive;
in the import path (`processBookmarks`), whose dedup runs after WHATWG URL
normalization has canonicalized both urls to `https://a.com/`, the two
entries collide and only the first survives. -/
theorem claim_C7_dedup_literal (idGen : Nat → JStr) (now importNow : JStr) :
    ((replaceLinksFn idGen now [] [c7CandA, c7CandB]).1.map fun l => l.url)
      = [strChars "https://A.com", strChars "https://a.com/"]
    ∧ (replaceLinksFn idGen now [] [c7CandA, c7CandB]).2 = 2
    ∧ (appendLoop [c7CandA, c7CandB] []).length = 2
    ∧ keyOf c7CandA.url ≠ keyOf c7CandB.url
    ∧ ((processBookmarks importNow [c7RawA, c7RawB]).map fun b => b.url)
      = [strChars "https://a.com/"] := by
  refine ⟨?_, ?_, by decide, by decide, ?_⟩
  · rfl
  · rfl
  · rfl

/-- C9 counterexample: in the client decode path (`parseAndAddRcData`), a
comment line preceded by leading whitespace is NOT ignored: the comment check
runs on the untrimmed line, so `"  #B,https://b.com"` is parsed as a data
line, is counted, and is stored as a link named `#B`. -/
theorem claim_C9_counterexample :
    (parseAndAddRcData (fun _ => []) [] []
        (strChars "A,https://a.com\n  #B,https://b.com")).2 = 2
    ∧ ((parseAndAddRcData (fun _ => []) [] []
        (strChars "A,https://a.com\n  #B,https://b.com")).1.map fun l => l.name)
      = [strChars "A", strChars "#B"] := by
  exact ⟨by decide, by decide⟩

/-- C9 (amended): blank lines yield no record in either decode path; in the
server path (`parseRcFile`) any line whose first non-space character is `#`
is ignored, including comment lines preceded by leading whitespace; in the
client path (`parseAndAddRcData`) a line starting with `#` at position 0 is
ignored, but a `#` preceded by leading whitespace is not recognized as a
comment (see the counterexample). -/
theorem claim_C9_comment_blank_lines :
    (∀ (nowMs index : Nat) (line : JStr),
      jsTrim line = [] ∨ (strChars "#").isPrefixOf (jsTrim line) →
        parseRcLine nowMs index line = none)
    ∧ (∀ line : JStr,
      jsTrim line = [] ∨ (strChars "#").isPrefixOf line →
        rcCandLine line = none) := by
  constructor
  · intro nowMs index line h
    unfold parseRcLine
    rw [if_pos (by simpa using h)]
  · intro line h
    unfold rcCandLine
    rcases h with h | h
    · rw [if_neg (by simp [h])]
    · rw [if_neg (by simp [h])]

/-- Witness for claim C9's amended statement at concrete comment lines. -/
theorem claim_C9_comment_blank_lines_witness :
    (jsTrim (strChars "  # hidden") = [] ∨
      (strChars "#").isPrefixOf (jsTrim (strChars "  # hidden")))
    ∧ parseRcLine 0 1 (strChars "  # hidden") = none
    ∧ ((jsTrim (strChars "# note") = [] ∨ (strChars "#").isPrefixOf (strChars "# note")))
    ∧ rcCandLine (strChars "# note") = none
    ∧ rcCandLine (strChars "   ") = none :=
  ⟨Or.inr (by decide),
   claim_C9_comment_blank_lines.1 0 1 (strChars "  # hidden") (Or.inr (by decide)),
   Or.inr (by decide),
   claim_C9_comment_blank_lines.2 (strChars "# note") (Or.inr (by decide)),
   claim_C9_comment_blank_lines.2 (strChars "   ") (Or.inl (by decide))⟩

/-- C10: `parseAndAddRcData` returns the number of candidate records parsed
from the text (non-blank, non-comment lines with at least two comma-separated
fields), not the size of the stored collection, which it rebuilds by
delegating to `replaceLinks`; on the concrete input
`"A,notaurl\nB,https://b.com"` the returned count is 2 while only 1 link is
stored (the `notaurl` candidate is dropped by `replaceLinks`). -/
theorem claim_C10_parse_count (idGen : Nat → JStr) (now : JStr) (old : List StoredLink)
    (rcData : JStr) :
    (parseAndAddRcData idGen now old rcData).2 = (rcCandidates rcData).length
    ∧ (parseAndAddRcData idGen now old rcData).1
      = (replaceLinksFn idGen now old (rcCandidates rcData)).1
    ∧ (parseAndAddRcData (fun _ => []) [] [] (strChars "A,notaurl\nB,https://b.com")).2 = 2
    ∧ (parseAndAddRcData (fun _ => []) [] [] (strChars "A,notaurl\nB,https://b.com")).1.length = 1 :=
  ⟨rfl, rfl, by decide, by decide⟩

/-- A handler-valid candidate whose url contains a comma (claim C2's
counterexample input). -/
def c2BadCand : Candidate :=
  { name := strChars "A", url := strChars "http://x.com/a,b", tags := [] }

/-- C2 counterexample: append-mode reconciliation is NOT idempotent for every
valid batch.  The candidate `A` / `http://x.com/a,b` passes every check of
the append handler (non-empty name, url key starts with `http`, not already
present), so the first append reports `added = 1`; but the re-read dedup key
of the written line is truncated at the comma (`split(',')[1]` gives
`http://x.com/a`), so the second append of the same batch again reports
`added = 1` (the claim requires `added = 0, skipped = 1`) and grows the
file. -/
theorem claim_C2_counterexample :
    c2BadCand.name ≠ [] ∧ c2BadCand.url ≠ []
    ∧ (strChars "http").isPrefixOf (keyOf c2BadCand.url) = true
    ∧ keyOf c2BadCand.url ∉ existingUrlSet []
    ∧ (rcAppend [] [c2BadCand]).added = 1
    ∧ (rcAppend (rcAppend [] [c2BadCand]).content [c2BadCand]).added = 1
    ∧ (rcAppend (rcAppend [] [c2BadCand]).content [c2BadCand]).skipped = 0
    ∧ (rcAppend (rcAppend [] [c2BadCand]).content [c2BadCand]).content
      ≠ (rcAppend [] [c2BadCand]).content := by
  refine ⟨?_, ?_, ?_, ?_, ?_, ?_, ?_, ?_⟩ <;> decide

/-- The first candidate of claim C2's witness batch. -/
def c2CandA : Candidate :=
  { name := strChars "A", url := strChars "https://a.com", tags := [strChars "Dev"] }

/-- The second candidate of claim C2's witness batch. -/
def c2CandB : Candidate :=
  { name := strChars "B", url := strChars "https://b.com", tags := [] }

/-- The pre-existing file content of claim C2's witness. -/
def c2Existing : JStr := strChars "# c\nOld,https://old.com,X\n"

/-- Witness for claim C2's amended statement at a concrete file and batch. -/
theorem claim_C2_append_idempotent_witness :
    (∀ c ∈ [c2CandA, c2CandB],
      c.url ≠ [] ∧ c.name ≠ [] ∧ (strChars "http").isPrefixOf (keyOf c.url) = true)
    ∧ (∀ c ∈ [c2CandA, c2CandB],
      ',' ∉ c.url ∧ '\n' ∉ c.url ∧ '\n' ∉ c.name ∧ ∀ t ∈ c.tags, '\n' ∉ t)
    ∧ ([c2CandA, c2CandB].map fun c => keyOf c.url).Nodup
    ∧ (∀ c ∈ [c2CandA, c2CandB], keyOf c.url ∉ existingUrlSet c2Existing)
    ∧ (rcAppend c2Existing [c2CandA, c2CandB]).added = 2
    ∧ (rcAppend c2Existing [c2CandA, c2CandB]).skipped = 0
    ∧ rcAppend (rcAppend c2Existing [c2CandA, c2CandB]).content [c2CandA, c2CandB]
      = { content := (rcAppend c2Existing [c2CandA, c2CandB]).content,
          added := 0
          skipped := 2 } := by
  have h := claim_C2_append_idempotent c2Existing [c2CandA, c2CandB]
    (by decide) (by decide) (by decide) (by decide)
  exact ⟨by decide, by decide, by decide, by decide, h.1, h.2.1, h.2.2⟩
